import Mathlib

/-!
Verification of the hybrid retrieval and result-fusion engine of BarbellGPT
(`src/core/retriever.py` and `src/core/vector_store.py`).

Python dictionaries that the program itself constructs are modelled as Lean
structures whose fields are the keys the program always populates; the
insertion-ordered `result_map` dictionary is modelled as a list of candidates
with unique ids kept in insertion order; Python floats are modelled as exact
rationals; `try/except` boundaries are modelled by `Except` valued inputs
describing the outcome of the external call.
-/

namespace BarbellGPT

/-- Document metadata: a Python dict of string keys and values. -/
abbrev Metadata := List (String × String)

/-- An entry of the list returned by `ChromaVectorStore.search`
(`src/core/vector_store.py` lines 141-146): keys `text`, `metadata`, `id`,
`distance`; the distance is `None` when the raw result has no distances. -/
structure VecResult where
  id : String
  text : String
  metadata : Metadata
  distance : Option ℚ
deriving DecidableEq

/-- An entry of the keyword result list built in `HybridRetriever.search`
(`src/core/retriever.py` lines 79-87): keys `text`, `metadata`, `id`, `score`. -/
structure KwResult where
  id : String
  text : String
  metadata : Metadata
  score : ℚ
deriving DecidableEq

/-- A scored candidate: a value of `result_map` in `_merge_results`
(`src/core/retriever.py` lines 124-131 and 139-146). -/
structure Candidate where
  text : String
  metadata : Metadata
  id : String
  vector_score : ℚ
  keyword_score : ℚ
  combined_score : ℚ
deriving DecidableEq

/-- A langchain `Document` as consumed at `src/core/retriever.py` lines 79-87:
`page_content` and `metadata`. -/
structure KwDoc where
  page_content : String
  metadata : Metadata
deriving DecidableEq

/-- A BM25 retriever: its `get_relevant_documents` method, which either raises
(`Except.error`) or returns a document list. -/
def BM25 : Type := String → Except Unit (List KwDoc)

/-- The mutable state of a `HybridRetriever` (`src/core/retriever.py` lines
22-35): `vector_weight` fixed at construction, `keyword_weight` derived as
`1.0 - vector_weight`, and the optional BM25 retriever, initially `None`. -/
structure HybridRetriever where
  vector_weight : ℚ
  bm25_retriever : Option BM25

/-- Derived keyword weight, `self.keyword_weight = 1.0 - vector_weight`
(`src/core/retriever.py` line 32). -/
def keyword_weight (r : HybridRetriever) : ℚ := 1 - r.vector_weight

/-- The candidate created for a vector result (`src/core/retriever.py` lines
124-131): `vector_score = 1.0 - (result.get('distance', 0) or 0)`, so a
missing (`None`) distance is coerced to `0` by the `or 0`. -/
def vecCandidate (v : VecResult) : Candidate :=
  { text := v.text
    metadata := v.metadata
    id := v.id
    vector_score := 1 - v.distance.getD 0
    keyword_score := 0
    combined_score := 0 }

/-- The candidate inserted for a keyword result whose id is absent from the
map (`src/core/retriever.py` lines 139-146). -/
def kwCandidate (k : KwResult) : Candidate :=
  { text := k.text
    metadata := k.metadata
    id := k.id
    vector_score := 0
    keyword_score := k.score
    combined_score := 0 }

/-- Lookup of `doc_id` in `result_map` (dictionary membership / access). -/
def findCand (m : List Candidate) (i : String) : Option Candidate :=
  m.find? (fun c => c.id == i)

/-- One step of the vector-result loop (`src/core/retriever.py` lines
121-131): `if doc_id not in result_map:` insert a fresh candidate, else skip. -/
def addVector (m : List Candidate) (v : VecResult) : List Candidate :=
  if (findCand m v.id).isSome then m else m ++ [vecCandidate v]

/-- The in-place update `result_map[doc_id]['keyword_score'] = score`
(`src/core/retriever.py` line 137), applied to the entry whose id matches. -/
def kwUpdate (k : KwResult) (c : Candidate) : Candidate :=
  if c.id == k.id then { c with keyword_score := k.score } else c

/-- One step of the keyword-result loop (`src/core/retriever.py` lines
134-146): if `doc_id in result_map` overwrite that entry's `keyword_score`
in place, else insert a fresh keyword-only candidate. -/
def addKeyword (m : List Candidate) (k : KwResult) : List Candidate :=
  if (findCand m k.id).isSome then m.map (kwUpdate k)
  else m ++ [kwCandidate k]

/-- The `result_map` after both loops of `_merge_results`
(`src/core/retriever.py` lines 117-146), values in insertion order. -/
def mergeMap (vrs : List VecResult) (krs : List KwResult) : List Candidate :=
  krs.foldl addKeyword (vrs.foldl addVector [])

/-- The combined-score pass (`src/core/retriever.py` lines 148-153):
`combined_score = vector_weight * vector_score + keyword_weight * keyword_score`. -/
def scoredMap (vw kw : ℚ) (vrs : List VecResult) (krs : List KwResult) : List Candidate :=
  (mergeMap vrs krs).map
    (fun c => { c with combined_score := vw * c.vector_score + kw * c.keyword_score })

/-- The sort order of `sorted(..., key=lambda x: x['combined_score'],
reverse=True)`: `a` may come before `b` iff `a`'s combined score is at least
`b`'s; Python's sort is stable, matching stable insertion sort. -/
def candGE (a b : Candidate) : Prop := b.combined_score ≤ a.combined_score

instance (a b : Candidate) : Decidable (candGE a b) :=
  inferInstanceAs (Decidable (b.combined_score ≤ a.combined_score))

instance : IsTotal Candidate candGE := ⟨fun a b => le_total b.combined_score a.combined_score⟩

instance : IsTrans Candidate candGE := ⟨fun _ _ _ hab hbc => le_trans hbc hab⟩

/-- `HybridRetriever._merge_results` (`src/core/retriever.py` lines 103-162):
merge both result lists into `result_map`, compute combined scores, sort by
combined score descending (stable) and keep the first `n_results`. -/
def merge_results (r : HybridRetriever) (vrs : List VecResult)
    (krs : List KwResult) (n_results : Nat) : List Candidate :=
  ((scoredMap r.vector_weight (keyword_weight r) vrs krs).insertionSort candGE).take n_results

/-- Formatting of a BM25 document into a keyword result dict
(`src/core/retriever.py` lines 80-85): `id` is `doc.metadata.get('id', '')`
and the score is the fixed placeholder `1.0`. -/
def docToKwResult (doc : KwDoc) : KwResult :=
  { id := (doc.metadata.lookup "id").getD ""
    text := doc.page_content
    metadata := doc.metadata
    score := 1 }

/-- The keyword phase of `HybridRetriever.search` (`src/core/retriever.py`
lines 74-89): `keyword_results` stays `[]` when `bm25_retriever` is `None`,
and also when `get_relevant_documents` raises (the inner `try` catches);
otherwise the first `n_results * 2` documents are formatted. -/
def keywordPhase (r : HybridRetriever) (query : String) (n_results : Nat) : List KwResult :=
  match r.bm25_retriever with
  | none => []
  | some bm25 =>
    match bm25 query with
    | .error _ => []
    | .ok docs => (docs.take (n_results * 2)).map docToKwResult

/-- `HybridRetriever.search` (`src/core/retriever.py` lines 50-101).
`vecCall` is the outcome of the call `self.vector_store.search(...)`: if that
call raises, the outer `try` catches and the method returns `[]`; otherwise
the keyword phase runs and the two lists are merged. -/
def search (r : HybridRetriever) (query : String)
    (vecCall : Except Unit (List VecResult)) (n_results : Nat) : List Candidate :=
  match vecCall with
  | .error _ => []
  | .ok vector_results => merge_results r vector_results (keywordPhase r query n_results) n_results

/-- `HybridRetriever.keyword_search` (`src/core/retriever.py` lines 184-212):
`[]` when no BM25 retriever is set and when `get_relevant_documents` raises. -/
def keyword_search (r : HybridRetriever) (query : String) (n_results : Nat) : List KwResult :=
  match r.bm25_retriever with
  | none => []
  | some bm25 =>
    match bm25 query with
    | .error _ => []
    | .ok docs => (docs.take n_results).map docToKwResult

/-- `HybridRetriever.setup_bm25_retriever` (`src/core/retriever.py` lines
37-48): `outcome` is the result of `BM25Retriever.from_documents`; on success
the retriever is stored, on exception the error is logged and the state is
left unchanged (no exception propagates, modelled by totality). -/
def setup_bm25_retriever (r : HybridRetriever) (outcome : Except Unit BM25) : HybridRetriever :=
  match outcome with
  | .ok b => { r with bm25_retriever := some b }
  | .error _ => r

/-- The raw answer of `self.collection.query` for a single query embedding
(`src/core/vector_store.py` lines 131-135): parallel lists, with the
distances list present only when the raw dict has a `distances` key. -/
structure ChromaRaw where
  ids : List String
  documents : List String
  metadatas : List Metadata
  distances : Option (List ℚ)

/-- The formatting loop of `ChromaVectorStore.search`
(`src/core/vector_store.py` lines 137-147). -/
def formatChroma (raw : ChromaRaw) : List VecResult :=
  if raw.documents.isEmpty then []
  else
    (List.range raw.documents.length).map (fun i =>
      { id := raw.ids.getD i ""
        text := raw.documents.getD i ""
        metadata := raw.metadatas.getD i []
        distance := raw.distances.map (fun ds => ds.getD i 0) })

/-- `ChromaVectorStore.search` (`src/core/vector_store.py` lines 115-154):
`call` is the outcome of the backing `collection.query`; any exception (for
example an unreachable backing service) is caught and an empty list is
returned. -/
def vector_store_search (call : Except Unit ChromaRaw) : List VecResult :=
  match call with
  | .error _ => []
  | .ok raw => formatChroma raw

/-- First keyword result carrying a given id, if any. -/
def firstKw (krs : List KwResult) (i : String) : Option KwResult :=
  krs.find? (fun k => k.id == i)

/-- Last keyword result carrying a given id, if any. -/
def lastKw (krs : List KwResult) (i : String) : Option KwResult :=
  krs.reverse.find? (fun k => k.id == i)

/-- Effect of the keyword loop on one candidate, summarised: the last matching
keyword result (if any) determines the final `keyword_score`. -/
def applyKw (ok : Option KwResult) (c : Candidate) : Candidate :=
  match ok with
  | none => c
  | some l => { c with keyword_score := l.score }

attribute [local semireducible] Rat.mul Rat.add Rat.sub Rat.inv

theorem kwUpdate_id (k : KwResult) (c : Candidate) : (kwUpdate k c).id = c.id := by
  unfold kwUpdate; split <;> rfl

theorem kwUpdate_text (k : KwResult) (c : Candidate) : (kwUpdate k c).text = c.text := by
  unfold kwUpdate; split <;> rfl

theorem kwUpdate_metadata (k : KwResult) (c : Candidate) :
    (kwUpdate k c).metadata = c.metadata := by
  unfold kwUpdate; split <;> rfl

theorem kwUpdate_vector_score (k : KwResult) (c : Candidate) :
    (kwUpdate k c).vector_score = c.vector_score := by
  unfold kwUpdate; split <;> rfl

theorem applyKw_id (ok : Option KwResult) (c : Candidate) : (applyKw ok c).id = c.id := by
  cases ok <;> rfl

theorem applyKw_text (ok : Option KwResult) (c : Candidate) : (applyKw ok c).text = c.text := by
  cases ok <;> rfl

theorem applyKw_metadata (ok : Option KwResult) (c : Candidate) :
    (applyKw ok c).metadata = c.metadata := by
  cases ok <;> rfl

theorem applyKw_vector_score (ok : Option KwResult) (c : Candidate) :
    (applyKw ok c).vector_score = c.vector_score := by
  cases ok <;> rfl

theorem findCand_map_kwUpdate (m : List Candidate) (k : KwResult) (i : String) :
    findCand (m.map (kwUpdate k)) i = (findCand m i).map (kwUpdate k) := by
  unfold findCand
  rw [List.find?_map]
  have hp : ((fun c : Candidate => c.id == i) ∘ kwUpdate k) = (fun c : Candidate => c.id == i) := by
    funext c
    simp [Function.comp, kwUpdate_id]
  rw [hp]

theorem findCand_mem {m : List Candidate} {i : String} {c : Candidate}
    (h : findCand m i = some c) : c ∈ m ∧ c.id = i := by
  refine ⟨List.mem_of_find?_eq_some h, ?_⟩
  have := List.find?_some h
  simpa using this

theorem findCand_eq_none {m : List Candidate} {i : String} :
    findCand m i = none ↔ ∀ c ∈ m, c.id ≠ i := by
  unfold findCand
  simp [List.find?_eq_none]

theorem findCand_addVector (m : List Candidate) (v : VecResult) (i : String) :
    findCand (addVector m v) i =
      (findCand m i).or (if v.id == i then some (vecCandidate v) else none) := by
  unfold addVector
  split
  · rename_i hs
    by_cases hvi : v.id = i
    · subst hvi
      obtain ⟨c, hc⟩ := Option.isSome_iff_exists.mp hs
      rw [hc]; rfl
    · simp [hvi, Option.or_none]
  · unfold findCand
    rw [List.find?_append]
    congr 1
    by_cases hvi : v.id = i
    · have hb : ((vecCandidate v).id == i) = true := by simp [vecCandidate, hvi]
      simp [List.find?, hb, vecCandidate, hvi]
    · have hb : ((vecCandidate v).id == i) = false := by simp [vecCandidate, hvi]
      have hb2 : (v.id == i) = false := by simp [hvi]
      simp [List.find?, hb, hb2]

theorem findCand_addKeyword (m : List Candidate) (k : KwResult) (i : String) :
    findCand (addKeyword m k) i =
      match findCand m i with
      | some c => some (kwUpdate k c)
      | none => if k.id == i then some (kwCandidate k) else none := by
  unfold addKeyword
  split
  · rename_i hs
    rw [findCand_map_kwUpdate]
    cases h : findCand m i with
    | some c => rfl
    | none =>
      by_cases hki : k.id = i
      · subst hki
        rw [h] at hs; simp at hs
      · simp [hki]
  · rename_i hs
    rw [Option.not_isSome_iff_eq_none] at hs
    unfold findCand at *
    rw [List.find?_append]
    cases h : List.find? (fun c => c.id == i) m with
    | some c =>
      have hci : c.id = i := by simpa using List.find?_some h
      have hck : ¬ (c.id = k.id) := by
        intro hck
        have : c ∈ m := List.mem_of_find?_eq_some h
        rw [List.find?_eq_none] at hs
        exact (by simpa [hck] using hs c this)
      simp only [Option.or_some, Option.or]
      have : kwUpdate k c = c := by unfold kwUpdate; simp [hck]
      rw [this]
    | none =>
      by_cases hki : k.id = i
      · have hb : ((kwCandidate k).id == i) = true := by simp [kwCandidate, hki]
        simp [List.find?, hb, kwCandidate, hki]
      · have hb : ((kwCandidate k).id == i) = false := by simp [kwCandidate, hki]
        have hb2 : (k.id == i) = false := by simp [hki]
        simp [List.find?, hb, hb2]

theorem findCand_foldl_addVector (vrs : List VecResult) (m : List Candidate) (i : String) :
    findCand (vrs.foldl addVector m) i =
      (findCand m i).or ((vrs.find? (fun v => v.id == i)).map vecCandidate) := by
  induction vrs generalizing m with
  | nil => simp
  | cons v rest ih =>
    rw [List.foldl_cons, ih, findCand_addVector]
    by_cases hvi : v.id = i
    · simp [hvi, Option.or_assoc]
    · simp [hvi]

theorem findCand_foldl_addKeyword (krs : List KwResult) (m : List Candidate) (i : String) :
    findCand (krs.foldl addKeyword m) i =
      match findCand m i with
      | some c => some (applyKw (lastKw krs i) c)
      | none => (firstKw krs i).map (fun f => applyKw (lastKw krs i) (kwCandidate f)) := by
  induction krs generalizing m with
  | nil =>
    cases h : findCand m i <;> simp [firstKw, lastKw, applyKw, h]
  | cons k rest ih =>
    have hlast : lastKw (k :: rest) i =
        (lastKw rest i).or (if k.id == i then some k else none) := by
      unfold lastKw
      rw [List.reverse_cons, List.find?_append]
      congr 1
      by_cases hki : k.id = i
      · have hb : (k.id == i) = true := by simp [hki]
        simp [List.find?, hb]
      · have hb : (k.id == i) = false := by simp [hki]
        simp [List.find?, hb]
    have hfirst : firstKw (k :: rest) i =
        if k.id == i then some k else firstKw rest i := by
      unfold firstKw
      by_cases hki : k.id = i
      · have hb : (k.id == i) = true := by simp [hki]
        simp [List.find?_cons, hb]
      · have hb : (k.id == i) = false := by simp [hki]
        simp [List.find?_cons, hb]
    rw [List.foldl_cons, ih, findCand_addKeyword]
    rw [hlast, hfirst]
    by_cases hki : k.id = i
    · subst hki
      have hb : (k.id == k.id) = true := by simp
      rw [hb]
      cases h : findCand m k.id with
      | some c =>
        have hci : c.id = k.id := (findCand_mem h).2
        have hck : (c.id == k.id) = true := by simp [hci]
        simp only [if_true]
        unfold kwUpdate
        rw [if_pos hck]
        cases hl : lastKw rest k.id <;> simp [applyKw, hl]
      | none =>
        simp only [if_true]
        cases hl : lastKw rest k.id <;> simp [applyKw, hl, kwCandidate]
    · have hkib : (k.id == i) = false := by simp [hki]
      rw [hkib]
      cases h : findCand m i with
      | some c =>
        have hci : c.id = i := (findCand_mem h).2
        have hck : (c.id == k.id) = false := by
          simp only [beq_eq_false_iff_ne, ne_eq]
          intro he; exact hki (he ▸ hci)
        simp only [if_neg (by simp : ¬ False)]
        unfold kwUpdate
        rw [if_neg (by simp [hck])]
        simp
      | none =>
        simp

theorem findCand_mergeMap (vrs : List VecResult) (krs : List KwResult) (i : String) :
    findCand (mergeMap vrs krs) i =
      match (vrs.find? (fun v => v.id == i)).map vecCandidate with
      | some c => some (applyKw (lastKw krs i) c)
      | none => (firstKw krs i).map (fun f => applyKw (lastKw krs i) (kwCandidate f)) := by
  unfold mergeMap
  rw [findCand_foldl_addKeyword, findCand_foldl_addVector]
  rfl

theorem mem_ids_iff_findCand (m : List Candidate) (i : String) :
    i ∈ m.map Candidate.id ↔ (findCand m i).isSome := by
  unfold findCand
  rw [List.find?_isSome]
  constructor
  · intro h
    obtain ⟨c, hc, he⟩ := List.mem_map.mp h
    exact ⟨c, hc, by simp [he]⟩
  · rintro ⟨c, hc, he⟩
    have hci : c.id = i := by simpa using he
    exact hci ▸ List.mem_map_of_mem Candidate.id hc

theorem ids_addVector (m : List Candidate) (v : VecResult) :
    (addVector m v).map Candidate.id = m.map Candidate.id
      ∨ ((addVector m v).map Candidate.id = m.map Candidate.id ++ [v.id]
          ∧ v.id ∉ m.map Candidate.id) := by
  unfold addVector
  split
  · exact Or.inl rfl
  · rename_i hs
    refine Or.inr ⟨by simp [vecCandidate], ?_⟩
    rw [mem_ids_iff_findCand]
    exact hs

theorem ids_addKeyword (m : List Candidate) (k : KwResult) :
    (addKeyword m k).map Candidate.id = m.map Candidate.id
      ∨ ((addKeyword m k).map Candidate.id = m.map Candidate.id ++ [k.id]
          ∧ k.id ∉ m.map Candidate.id) := by
  unfold addKeyword
  split
  · refine Or.inl ?_
    rw [List.map_map]
    congr 1
    funext c
    simp [Function.comp, kwUpdate_id]
  · rename_i hs
    refine Or.inr ⟨by simp [kwCandidate], ?_⟩
    rw [mem_ids_iff_findCand]
    exact hs

theorem nodup_ids_addVector {m : List Candidate} (h : (m.map Candidate.id).Nodup)
    (v : VecResult) : ((addVector m v).map Candidate.id).Nodup := by
  rcases ids_addVector m v with he | ⟨he, hn⟩
  · rw [he]; exact h
  · rw [he]
    rw [List.nodup_append]
    refine ⟨h, List.nodup_singleton _, fun a ha hb => ?_⟩
    rw [List.mem_singleton] at hb
    exact hn (hb ▸ ha)

theorem nodup_ids_addKeyword {m : List Candidate} (h : (m.map Candidate.id).Nodup)
    (k : KwResult) : ((addKeyword m k).map Candidate.id).Nodup := by
  rcases ids_addKeyword m k with he | ⟨he, hn⟩
  · rw [he]; exact h
  · rw [he]
    rw [List.nodup_append]
    refine ⟨h, List.nodup_singleton _, fun a ha hb => ?_⟩
    rw [List.mem_singleton] at hb
    exact hn (hb ▸ ha)

theorem nodup_ids_foldl_addVector (vrs : List VecResult) {m : List Candidate}
    (h : (m.map Candidate.id).Nodup) : (((vrs.foldl addVector m)).map Candidate.id).Nodup := by
  induction vrs generalizing m with
  | nil => exact h
  | cons v rest ih => exact ih (nodup_ids_addVector h v)

theorem nodup_ids_foldl_addKeyword (krs : List KwResult) {m : List Candidate}
    (h : (m.map Candidate.id).Nodup) : (((krs.foldl addKeyword m)).map Candidate.id).Nodup := by
  induction krs generalizing m with
  | nil => exact h
  | cons k rest ih => exact ih (nodup_ids_addKeyword h k)

theorem nodup_ids_mergeMap (vrs : List VecResult) (krs : List KwResult) :
    ((mergeMap vrs krs).map Candidate.id).Nodup :=
  nodup_ids_foldl_addKeyword krs (nodup_ids_foldl_addVector vrs (by simp))

theorem mem_ids_mergeMap (vrs : List VecResult) (krs : List KwResult) (i : String) :
    i ∈ (mergeMap vrs krs).map Candidate.id ↔
      (i ∈ vrs.map VecResult.id ∨ i ∈ krs.map KwResult.id) := by
  rw [mem_ids_iff_findCand, findCand_mergeMap]
  cases h1 : vrs.find? (fun v => v.id == i) with
  | some v =>
    have hvm : v ∈ vrs := List.mem_of_find?_eq_some h1
    have hvi : v.id = i := by simpa using List.find?_some h1
    have hv : i ∈ vrs.map VecResult.id := hvi ▸ List.mem_map_of_mem VecResult.id hvm
    simp [hv]
  | none =>
    have hv : i ∉ vrs.map VecResult.id := by
      intro hm
      obtain ⟨v, hvm, hvi⟩ := List.mem_map.mp hm
      rw [List.find?_eq_none] at h1
      exact (by simpa [hvi] using h1 v hvm)
    cases h2 : firstKw krs i with
    | some f =>
      have hfm : f ∈ krs := List.mem_of_find?_eq_some h2
      have hfi : f.id = i := by simpa using List.find?_some h2
      have hk : i ∈ krs.map KwResult.id := hfi ▸ List.mem_map_of_mem KwResult.id hfm
      simp [hk]
    | none =>
      have hk : i ∉ krs.map KwResult.id := by
        intro hm
        obtain ⟨f, hfm, hfi⟩ := List.mem_map.mp hm
        unfold firstKw at h2
        rw [List.find?_eq_none] at h2
        exact (by simpa [hfi] using h2 f hfm)
      simp [hv, hk]

theorem findCand_of_mem {m : List Candidate} (hn : (m.map Candidate.id).Nodup)
    {c : Candidate} (hc : c ∈ m) : findCand m c.id = some c := by
  induction m with
  | nil => cases hc
  | cons a rest ih =>
    rcases List.mem_cons.mp hc with rfl | hcr
    · unfold findCand
      simp [List.find?_cons]
    · have hn' : (rest.map Candidate.id).Nodup := (List.nodup_cons.mp hn).2
      have hane : a.id ≠ c.id := by
        intro he
        have : a.id ∈ rest.map Candidate.id := he ▸ List.mem_map_of_mem Candidate.id hcr
        exact (List.nodup_cons.mp hn).1 this
      have hb : (a.id == c.id) = false := by simp [hane]
      unfold findCand at *
      rw [List.find?_cons_of_neg _ (by simp [hb]), ih hn' hcr]

theorem mem_foldl_addVector {vrs : List VecResult} {m : List Candidate} {c : Candidate}
    (h : c ∈ vrs.foldl addVector m) : c ∈ m ∨ ∃ v ∈ vrs, c = vecCandidate v := by
  induction vrs generalizing m with
  | nil => exact Or.inl h
  | cons v rest ih =>
    rw [List.foldl_cons] at h
    rcases ih h with hm | ⟨v', hv', he⟩
    · unfold addVector at hm
      split at hm
      · exact Or.inl hm
      · rcases List.mem_append.mp hm with hm' | hm'
        · exact Or.inl hm'
        · exact Or.inr ⟨v, List.mem_cons_self v rest, by simpa using hm'⟩
    · exact Or.inr ⟨v', List.mem_cons_of_mem v hv', he⟩

theorem mem_scoredMap {vw kw : ℚ} {vrs : List VecResult} {krs : List KwResult} {c : Candidate}
    (h : c ∈ scoredMap vw kw vrs krs) :
    ∃ c₀ ∈ mergeMap vrs krs,
      c = { c₀ with combined_score := vw * c₀.vector_score + kw * c₀.keyword_score } := by
  unfold scoredMap at h
  obtain ⟨c₀, hc₀, he⟩ := List.mem_map.mp h
  exact ⟨c₀, hc₀, he.symm⟩

theorem mem_merge_results {r : HybridRetriever} {vrs : List VecResult} {krs : List KwResult}
    {n : Nat} {c : Candidate} (h : c ∈ merge_results r vrs krs n) :
    c ∈ scoredMap r.vector_weight (keyword_weight r) vrs krs := by
  unfold merge_results at h
  exact (List.perm_insertionSort candGE _).mem_iff.mp (List.mem_of_mem_take h)

theorem ids_scoredMap (vw kw : ℚ) (vrs : List VecResult) (krs : List KwResult) :
    (scoredMap vw kw vrs krs).map Candidate.id = (mergeMap vrs krs).map Candidate.id := by
  unfold scoredMap
  rw [List.map_map]
  rfl

theorem countP_id_mergeMap {vrs : List VecResult} {krs : List KwResult} {i : String}
    (h : i ∈ (mergeMap vrs krs).map Candidate.id) :
    (mergeMap vrs krs).countP (fun c => c.id == i) = 1 := by
  have h1 : (mergeMap vrs krs).countP (fun c => c.id == i)
      = ((mergeMap vrs krs).map Candidate.id).count i := by
    rw [List.count, List.countP_map]
    rfl
  rw [h1]
  exact List.count_eq_one_of_mem (nodup_ids_mergeMap vrs krs) h

theorem length_foldl_addVector (vrs : List VecResult) (m : List Candidate)
    (hnd : (vrs.map VecResult.id).Nodup)
    (hdisj : ∀ v ∈ vrs, findCand m v.id = none) :
    (vrs.foldl addVector m).length = m.length + vrs.length := by
  induction vrs generalizing m with
  | nil => simp
  | cons v rest ih =>
    rw [List.foldl_cons]
    have hv : findCand m v.id = none := hdisj v (List.mem_cons_self v rest)
    have haddv : addVector m v = m ++ [vecCandidate v] := by
      unfold addVector
      rw [hv]
      simp
    have hpair : (∀ x ∈ rest, ¬ x.id = v.id) ∧ (rest.map VecResult.id).Nodup := by
      simpa using hnd
    have hnd' : (rest.map VecResult.id).Nodup := hpair.2
    have hdisj' : ∀ w ∈ rest, findCand (addVector m v) w.id = none := by
      intro w hw
      rw [findCand_addVector, hdisj w (List.mem_cons_of_mem _ hw)]
      have hne : v.id ≠ w.id := fun he => hpair.1 w hw he.symm
      have hb : (v.id == w.id) = false := by simp [hne]
      simp [hb]
    rw [ih (addVector m v) hnd' hdisj', haddv]
    simp
    omega

theorem mergeMap_nil_keyword (vrs : List VecResult) :
    mergeMap vrs [] = vrs.foldl addVector [] := rfl

theorem firstKw_eq_none {krs : List KwResult} {i : String} (h : i ∉ krs.map KwResult.id) :
    firstKw krs i = none := by
  unfold firstKw
  rw [List.find?_eq_none]
  intro k hk hb
  have he : k.id = i := by simpa using hb
  exact h (he ▸ List.mem_map_of_mem KwResult.id hk)

theorem lastKw_eq_none {krs : List KwResult} {i : String} (h : i ∉ krs.map KwResult.id) :
    lastKw krs i = none := by
  unfold lastKw
  rw [List.find?_eq_none]
  intro k hk hb
  have he : k.id = i := by simpa using hb
  exact h (he ▸ List.mem_map_of_mem KwResult.id (List.mem_reverse.mp hk))

theorem vecFind_eq_none {vrs : List VecResult} {i : String} (h : i ∉ vrs.map VecResult.id) :
    vrs.find? (fun v => v.id == i) = none := by
  rw [List.find?_eq_none]
  intro v hv hb
  have he : v.id = i := by simpa using hb
  exact h (he ▸ List.mem_map_of_mem VecResult.id hv)

theorem find?_eq_head_filter (p : KwResult → Bool) (l : List KwResult) :
    l.find? p = (l.filter p).head? := by
  induction l with
  | nil => rfl
  | cons a t ih =>
    by_cases h : p a
    · rw [List.find?_cons_of_pos _ h, List.filter_cons_of_pos h]
      rfl
    · rw [List.find?_cons_of_neg _ h, List.filter_cons_of_neg h, ih]

theorem firstKw_eq_head_filter (krs : List KwResult) (i : String) :
    firstKw krs i = (krs.filter (fun k => k.id == i)).head? :=
  find?_eq_head_filter _ _

theorem lastKw_eq_getLast_filter (krs : List KwResult) (i : String) :
    lastKw krs i = (krs.filter (fun k => k.id == i)).getLast? := by
  unfold lastKw
  rw [find?_eq_head_filter, List.filter_reverse, List.head?_reverse]

/-- C1: for every candidate returned by `_merge_results`, the combined score
equals `vector_weight * vector_score + keyword_weight * keyword_score`; the
model computes with exact rationals, so the equality is exact (and in
particular holds within the stated floating-point tolerance of 1e-9),
including for candidates found by only one sub-search. -/
theorem combined_score_formula (r : HybridRetriever) (vrs : List VecResult)
    (krs : List KwResult) (n : Nat) (c : Candidate) (h : c ∈ merge_results r vrs krs n) :
    c.combined_score = r.vector_weight * c.vector_score + keyword_weight r * c.keyword_score := by
  obtain ⟨c₀, hc₀, he⟩ := mem_scoredMap (mem_merge_results h)
  subst he
  rfl

theorem combined_score_formula_witness :
    (⟨"t", [], "d1", 4/5, 1, 43/50⟩ : Candidate).combined_score =
      (⟨7/10, none⟩ : HybridRetriever).vector_weight * (4/5 : ℚ)
        + keyword_weight ⟨7/10, none⟩ * 1 :=
  combined_score_formula ⟨7/10, none⟩ [⟨"d1", "t", [], some (1/5)⟩] [⟨"d1", "t", [], 1⟩] 5
    ⟨"t", [], "d1", 4/5, 1, 43/50⟩ (by decide)

/-- C2: the ids of the merged mapping are exactly the union of the ids in the
two input lists, with no duplicates (each id appears exactly once); when an
id occurs in both inputs, the vector score and the keyword score accumulate
onto the same single candidate record. -/
theorem merged_ids_union (vrs : List VecResult) (krs : List KwResult) :
    ((mergeMap vrs krs).map Candidate.id).Nodup ∧
    (∀ i, i ∈ (mergeMap vrs krs).map Candidate.id ↔
        (i ∈ vrs.map VecResult.id ∨ i ∈ krs.map KwResult.id)) ∧
    (∀ i v l, vrs.find? (fun x => x.id == i) = some v → lastKw krs i = some l →
      ∃ c, findCand (mergeMap vrs krs) i = some c ∧
        c.vector_score = 1 - v.distance.getD 0 ∧ c.keyword_score = l.score) := by
  refine ⟨nodup_ids_mergeMap vrs krs, fun i => mem_ids_mergeMap vrs krs i, ?_⟩
  intro i v l hv hl
  rw [findCand_mergeMap, hv, hl]
  exact ⟨applyKw (some l) (vecCandidate v), rfl, rfl, rfl⟩

theorem merged_ids_union_witness :
    ∃ c, findCand (mergeMap [⟨"d1", "t", [], some (1/5)⟩] [⟨"d1", "t", [], 1⟩]) "d1" = some c ∧
      c.vector_score = 1 - (some (1/5 : ℚ)).getD 0 ∧
      c.keyword_score = (1 : ℚ) :=
  (merged_ids_union [⟨"d1", "t", [], some (1/5)⟩] [⟨"d1", "t", [], 1⟩]).2.2 "d1"
    ⟨"d1", "t", [], some (1/5)⟩ ⟨"d1", "t", [], 1⟩ (by decide) (by decide)

/-- C3 (counterexample): a vector result that reports no distance produces a
candidate with `vector_score = 1`, not `0`, because the code computes
`1.0 - (result.get('distance', 0) or 0)` and the `or 0` turns the missing
distance into distance 0. -/
theorem vector_score_no_distance_counterexample :
    findCand (mergeMap [⟨"a", "t", [], none⟩] []) "a" = some ⟨"t", [], "a", 1, 0, 0⟩ ∧
    (⟨"t", [], "a", 1, 0, 0⟩ : Candidate).vector_score ≠ 0 := by
  constructor
  · decide
  · decide

/-- C3 (amended): a candidate created from a vector result has
`vector_score = 1 - d` where `d` is the reported distance, the missing
distance being treated as distance 0 — so a vector result with no distance
gets `vector_score = 1`; the value is not clamped, and a negative
`vector_score` is produced and accepted as-is for distance > 1. -/
theorem vector_score_from_distance (vrs : List VecResult) (krs : List KwResult)
    (i : String) (v : VecResult) (h : vrs.find? (fun x => x.id == i) = some v) :
    ∃ c, findCand (mergeMap vrs krs) i = some c ∧
      c.vector_score = 1 - v.distance.getD 0 ∧
      (v.distance = none → c.vector_score = 1) ∧
      (∀ d, v.distance = some d → 1 < d → c.vector_score < 0) := by
  rw [findCand_mergeMap, h]
  refine ⟨applyKw (lastKw krs i) (vecCandidate v), rfl, ?_, ?_, ?_⟩
  · rw [applyKw_vector_score]
    rfl
  · intro hd
    rw [applyKw_vector_score]
    show (vecCandidate v).vector_score = 1
    unfold vecCandidate
    simp [hd]
  · intro d hd hlt
    rw [applyKw_vector_score]
    show (vecCandidate v).vector_score < 0
    unfold vecCandidate
    simp only [hd, Option.getD_some]
    linarith

theorem vector_score_from_distance_witness :
    ∃ c, findCand (mergeMap [⟨"a", "t", [], some (3/2)⟩] []) "a" = some c ∧
      c.vector_score = 1 - (some (3/2 : ℚ)).getD 0 ∧
      ((some (3/2 : ℚ)) = none → c.vector_score = 1) ∧
      (∀ d, (some (3/2 : ℚ)) = some d → 1 < d → c.vector_score < 0) :=
  vector_score_from_distance [⟨"a", "t", [], some (3/2)⟩] [] "a" ⟨"a", "t", [], some (3/2)⟩
    (by decide)

/-- C5: a returned candidate whose id occurs only in the vector results has
`keyword_score = 0`, and one whose id occurs only in the keyword results has
`vector_score = 0`. -/
theorem single_source_scoring (r : HybridRetriever) (vrs : List VecResult)
    (krs : List KwResult) (n : Nat) (c : Candidate) (h : c ∈ merge_results r vrs krs n) :
    (c.id ∉ krs.map KwResult.id → c.keyword_score = 0) ∧
    (c.id ∉ vrs.map VecResult.id → c.vector_score = 0) := by
  obtain ⟨c₀, hc₀, he⟩ := mem_scoredMap (mem_merge_results h)
  have hid : c.id = c₀.id := by rw [he]
  have hks : c.keyword_score = c₀.keyword_score := by rw [he]
  have hvs : c.vector_score = c₀.vector_score := by rw [he]
  have hfind : findCand (mergeMap vrs krs) c₀.id = some c₀ :=
    findCand_of_mem (nodup_ids_mergeMap vrs krs) hc₀
  rw [findCand_mergeMap] at hfind
  constructor
  · intro hnk
    rw [hid] at *
    have h1 : firstKw krs c₀.id = none := firstKw_eq_none hnk
    have h2 : lastKw krs c₀.id = none := lastKw_eq_none hnk
    rw [h1, h2] at hfind
    cases hvf : vrs.find? (fun x => x.id == c₀.id) with
    | some v =>
      rw [hvf] at hfind
      have : applyKw none (vecCandidate v) = c₀ := by
        simpa using hfind
      rw [hks, ← this]
      rfl
    | none =>
      rw [hvf] at hfind
      simp at hfind
  · intro hnv
    rw [hid] at *
    have hvf : vrs.find? (fun x => x.id == c₀.id) = none := vecFind_eq_none hnv
    rw [hvf] at hfind
    simp only [Option.map_none'] at hfind
    cases hfk : firstKw krs c₀.id with
    | some f =>
      rw [hfk] at hfind
      have : applyKw (lastKw krs c₀.id) (kwCandidate f) = c₀ := by
        simpa using hfind
      rw [hvs, ← this, applyKw_vector_score]
      rfl
    | none =>
      rw [hfk] at hfind
      simp at hfind

theorem single_source_scoring_witness :
    ((⟨"t1", [], "d1", 1/2, 0, 7/20⟩ : Candidate).id ∉
        ([⟨"d2", "t2", [], 1⟩] : List KwResult).map KwResult.id →
      (⟨"t1", [], "d1", 1/2, 0, 7/20⟩ : Candidate).keyword_score = 0) ∧
    ((⟨"t1", [], "d1", 1/2, 0, 7/20⟩ : Candidate).id ∉
        ([⟨"d1", "t1", [], some (1/2)⟩] : List VecResult).map VecResult.id →
      (⟨"t1", [], "d1", 1/2, 0, 7/20⟩ : Candidate).vector_score = 0) :=
  single_source_scoring ⟨7/10, none⟩ [⟨"d1", "t1", [], some (1/2)⟩] [⟨"d2", "t2", [], 1⟩] 5
    ⟨"t1", [], "d1", 1/2, 0, 7/20⟩ (by decide)

/-- C8: when a keyword result's id is already present in the mapping, only
that entry's `keyword_score` is updated in place; the `text`, `metadata`,
`id` and `vector_score` of every entry in the mapping are unchanged. -/
theorem keyword_update_frame (m : List Candidate) (k : KwResult)
    (h : k.id ∈ m.map Candidate.id) :
    ((addKeyword m k).map fun c => (c.text, c.metadata, c.id, c.vector_score))
        = (m.map fun c => (c.text, c.metadata, c.id, c.vector_score)) ∧
    (∀ c ∈ addKeyword m k, c.id = k.id → c.keyword_score = k.score) ∧
    (∀ c ∈ addKeyword m k, c.id ≠ k.id → c ∈ m) := by
  have hs : (findCand m k.id).isSome := (mem_ids_iff_findCand m k.id).mp h
  have hmap : addKeyword m k = m.map (kwUpdate k) := by
    unfold addKeyword
    rw [if_pos hs]
  refine ⟨?_, ?_, ?_⟩
  · rw [hmap, List.map_map]
    congr 1
    funext c
    simp [Function.comp, kwUpdate_id, kwUpdate_text, kwUpdate_metadata, kwUpdate_vector_score]
  · intro c hc hci
    rw [hmap] at hc
    obtain ⟨c₀, hc₀, he⟩ := List.mem_map.mp hc
    subst he
    have hc₀i : c₀.id = k.id := (kwUpdate_id k c₀) ▸ hci
    unfold kwUpdate
    rw [if_pos (by simp [hc₀i])]
  · intro c hc hci
    rw [hmap] at hc
    obtain ⟨c₀, hc₀, he⟩ := List.mem_map.mp hc
    subst he
    have hc₀i : c₀.id ≠ k.id := fun he2 => hci ((kwUpdate_id k c₀).trans he2)
    have hu : kwUpdate k c₀ = c₀ := by
      unfold kwUpdate
      rw [if_neg (by simp [hc₀i])]
    rw [hu]
    exact hc₀

theorem keyword_update_frame_witness :
    ((addKeyword [⟨"t", [], "d1", 1/2, 0, 0⟩] ⟨"d1", "x", [], 1⟩).map
        fun c => (c.text, c.metadata, c.id, c.vector_score))
      = (([⟨"t", [], "d1", 1/2, 0, 0⟩] : List Candidate).map
          fun c => (c.text, c.metadata, c.id, c.vector_score)) ∧
    (∀ c ∈ addKeyword [⟨"t", [], "d1", 1/2, 0, 0⟩] ⟨"d1", "x", [], 1⟩,
      c.id = "d1" → c.keyword_score = 1) ∧
    (∀ c ∈ addKeyword [⟨"t", [], "d1", 1/2, 0, 0⟩] ⟨"d1", "x", [], 1⟩,
      c.id ≠ "d1" → c ∈ [⟨"t", [], "d1", 1/2, 0, 0⟩]) :=
  keyword_update_frame [⟨"t", [], "d1", 1/2, 0, 0⟩] ⟨"d1", "x", [], 1⟩ (by decide)

/-- C4: `_merge_results` returns exactly the first `n_results` entries of the
merged scored candidates sorted by `combined_score` descending with a stable
sort (ties keep the candidates' insertion order into the mapping); hence the
output has length at most `n_results`, is empty for `n_results = 0`, and any
candidate appearing before another has a combined score at least as large. -/
theorem ranking_sort_truncate (r : HybridRetriever) (vrs : List VecResult)
    (krs : List KwResult) (n : Nat) :
    merge_results r vrs krs n =
      ((scoredMap r.vector_weight (keyword_weight r) vrs krs).insertionSort candGE).take n ∧
    List.Perm ((scoredMap r.vector_weight (keyword_weight r) vrs krs).insertionSort candGE)
      (scoredMap r.vector_weight (keyword_weight r) vrs krs) ∧
    ((scoredMap r.vector_weight (keyword_weight r) vrs krs).insertionSort candGE).Pairwise
        (fun a b => b.combined_score ≤ a.combined_score) ∧
    (∀ a b, List.Sublist [a, b] (scoredMap r.vector_weight (keyword_weight r) vrs krs) →
      b.combined_score ≤ a.combined_score →
      List.Sublist [a, b]
        ((scoredMap r.vector_weight (keyword_weight r) vrs krs).insertionSort candGE)) ∧
    (merge_results r vrs krs n).length ≤ n ∧
    (n = 0 → merge_results r vrs krs n = []) ∧
    (merge_results r vrs krs n).Pairwise
      (fun a b => b.combined_score ≤ a.combined_score) := by
  refine ⟨rfl, List.perm_insertionSort candGE _, ?_, ?_, ?_, ?_, ?_⟩
  · exact List.sorted_insertionSort candGE _
  · intro a b hs hle
    exact List.pair_sublist_insertionSort hle hs
  · unfold merge_results
    rw [List.length_take]
    exact min_le_left _ _
  · intro hn
    subst hn
    rfl
  · exact List.Pairwise.sublist (List.take_sublist _ _) (List.sorted_insertionSort candGE _)

theorem ranking_sort_truncate_witness :
    List.Sublist [⟨"t1", [], "k1", 0, 1, 3/10⟩, ⟨"t2", [], "k2", 0, 1, 3/10⟩]
      ((scoredMap (⟨7/10, none⟩ : HybridRetriever).vector_weight
          (keyword_weight ⟨7/10, none⟩) []
          [⟨"k1", "t1", [], 1⟩, ⟨"k2", "t2", [], 1⟩]).insertionSort candGE) :=
  (ranking_sort_truncate ⟨7/10, none⟩ [] [⟨"k1", "t1", [], 1⟩, ⟨"k2", "t2", [], 1⟩] 2).2.2.2.1
    ⟨"t1", [], "k1", 0, 1, 3/10⟩ ⟨"t2", [], "k2", 0, 1, 3/10⟩ (by decide) (by decide)

/-- C6: with no BM25 retriever set, `search` skips keyword search silently
(keyword results are empty) and the fused output is pure vector ranking:
every candidate has `keyword_score = 0` and `combined_score = vector_weight *
vector_score`, the output is sorted by that score, and (when the vector ids
are distinct and fit within the limit) the output consists of exactly the
vector-search candidates. -/
theorem no_keyword_index_pure_vector (r : HybridRetriever) (h : r.bm25_retriever = none)
    (q : String) (vrs : List VecResult) (n : Nat) :
    search r q (.ok vrs) n = merge_results r vrs [] n ∧
    (∀ c ∈ search r q (.ok vrs) n,
      c.keyword_score = 0 ∧ c.combined_score = r.vector_weight * c.vector_score) ∧
    (search r q (.ok vrs) n).Pairwise (fun a b => b.combined_score ≤ a.combined_score) ∧
    ((vrs.map VecResult.id).Nodup → vrs.length ≤ n →
      (search r q (.ok vrs) n).length = vrs.length ∧
      (∀ i, (∃ c ∈ search r q (.ok vrs) n, c.id = i) ↔ i ∈ vrs.map VecResult.id)) := by
  have hsearch : search r q (.ok vrs) n = merge_results r vrs [] n := by
    simp [search, keywordPhase, h]
  have hks0 : ∀ c₀ ∈ mergeMap vrs [], c₀.keyword_score = 0 := by
    intro c₀ hc₀
    rw [mergeMap_nil_keyword] at hc₀
    rcases mem_foldl_addVector hc₀ with hm | ⟨v, _, he⟩
    · cases hm
    · rw [he]
      rfl
  refine ⟨hsearch, ?_, ?_, ?_⟩
  · intro c hc
    rw [hsearch] at hc
    obtain ⟨c₀, hc₀, he⟩ := mem_scoredMap (mem_merge_results hc)
    have hk0 : c₀.keyword_score = 0 := hks0 c₀ hc₀
    constructor
    · rw [he]
      simpa using hk0
    · rw [he]
      show r.vector_weight * c₀.vector_score + keyword_weight r * c₀.keyword_score
          = r.vector_weight * c₀.vector_score
      rw [hk0, mul_zero, add_zero]
  · rw [hsearch]
    exact List.Pairwise.sublist (List.take_sublist _ _) (List.sorted_insertionSort candGE _)
  · intro hnd hlen
    have hlen_merge : (mergeMap vrs []).length = vrs.length := by
      rw [mergeMap_nil_keyword]
      have h0 := length_foldl_addVector vrs [] hnd (fun v _ => rfl)
      simpa using h0
    have hlen_scored : (scoredMap r.vector_weight (keyword_weight r) vrs []).length
        = vrs.length := by
      unfold scoredMap
      rw [List.length_map, hlen_merge]
    have hlen_sorted :
        ((scoredMap r.vector_weight (keyword_weight r) vrs []).insertionSort candGE).length
          = vrs.length := by
      rw [(List.perm_insertionSort candGE _).length_eq, hlen_scored]
    have htake : merge_results r vrs [] n
        = (scoredMap r.vector_weight (keyword_weight r) vrs []).insertionSort candGE := by
      unfold merge_results
      exact List.take_of_length_le (by rw [hlen_sorted]; exact hlen)
    constructor
    · rw [hsearch, htake, hlen_sorted]
    · intro i
      rw [hsearch, htake]
      constructor
      · rintro ⟨c, hc, rfl⟩
        have hc' : c ∈ scoredMap r.vector_weight (keyword_weight r) vrs [] :=
          (List.perm_insertionSort candGE _).mem_iff.mp hc
        have hid : c.id ∈ (scoredMap r.vector_weight (keyword_weight r) vrs []).map
            Candidate.id := List.mem_map_of_mem Candidate.id hc'
        rw [ids_scoredMap] at hid
        rcases (mem_ids_mergeMap vrs [] c.id).mp hid with hv | hk
        · exact hv
        · simp at hk
      · intro hi
        have hmm : i ∈ (mergeMap vrs []).map Candidate.id :=
          (mem_ids_mergeMap vrs [] i).mpr (Or.inl hi)
        obtain ⟨c₀, hc₀, hcid⟩ := List.mem_map.mp hmm
        refine ⟨{ c₀ with combined_score := r.vector_weight * c₀.vector_score
            + keyword_weight r * c₀.keyword_score }, ?_, hcid⟩
        rw [(List.perm_insertionSort candGE _).mem_iff]
        unfold scoredMap
        exact List.mem_map_of_mem _ hc₀

theorem no_keyword_index_pure_vector_witness :
    search ⟨7/10, none⟩ "q"
        (.ok [⟨"d1", "t1", [], some (1/2)⟩, ⟨"d2", "t2", [], none⟩, ⟨"d3", "t3", [], some 2⟩]) 5
      = merge_results ⟨7/10, none⟩
        [⟨"d1", "t1", [], some (1/2)⟩, ⟨"d2", "t2", [], none⟩, ⟨"d3", "t3", [], some 2⟩] [] 5 ∧
    (∀ c ∈ search ⟨7/10, none⟩ "q"
        (.ok [⟨"d1", "t1", [], some (1/2)⟩, ⟨"d2", "t2", [], none⟩, ⟨"d3", "t3", [], some 2⟩]) 5,
      c.keyword_score = 0 ∧
        c.combined_score = (⟨7/10, none⟩ : HybridRetriever).vector_weight * c.vector_score) ∧
    (search ⟨7/10, none⟩ "q"
        (.ok [⟨"d1", "t1", [], some (1/2)⟩, ⟨"d2", "t2", [], none⟩, ⟨"d3", "t3", [], some 2⟩])
        5).Pairwise (fun a b => b.combined_score ≤ a.combined_score) ∧
    ((([⟨"d1", "t1", [], some (1/2)⟩, ⟨"d2", "t2", [], none⟩, ⟨"d3", "t3", [], some 2⟩]
        : List VecResult).map VecResult.id).Nodup →
      ([⟨"d1", "t1", [], some (1/2)⟩, ⟨"d2", "t2", [], none⟩, ⟨"d3", "t3", [], some 2⟩]
        : List VecResult).length ≤ 5 →
      (search ⟨7/10, none⟩ "q"
        (.ok [⟨"d1", "t1", [], some (1/2)⟩, ⟨"d2", "t2", [], none⟩, ⟨"d3", "t3", [], some 2⟩])
        5).length
        = ([⟨"d1", "t1", [], some (1/2)⟩, ⟨"d2", "t2", [], none⟩, ⟨"d3", "t3", [], some 2⟩]
          : List VecResult).length ∧
      (∀ i, (∃ c ∈ search ⟨7/10, none⟩ "q"
          (.ok [⟨"d1", "t1", [], some (1/2)⟩, ⟨"d2", "t2", [], none⟩, ⟨"d3", "t3", [], some 2⟩])
          5, c.id = i) ↔
        i ∈ ([⟨"d1", "t1", [], some (1/2)⟩, ⟨"d2", "t2", [], none⟩, ⟨"d3", "t3", [], some 2⟩]
          : List VecResult).map VecResult.id)) :=
  no_keyword_index_pure_vector ⟨7/10, none⟩ rfl "q"
    [⟨"d1", "t1", [], some (1/2)⟩, ⟨"d2", "t2", [], none⟩, ⟨"d3", "t3", [], some 2⟩] 5

/-- C7 (counterexample): with the backing vector service unreachable,
`ChromaVectorStore.search` swallows the error and returns `[]`, after which
`HybridRetriever.search` returns the keyword-only candidates — a non-empty
partial answer rather than the empty list the claim requires. -/
theorem vector_failure_counterexample :
    search ⟨7/10, some (fun _ => .ok [⟨"kw text", [("id", "k1")]⟩])⟩ "q"
        (.ok (vector_store_search (.error ()))) 5 =
      [⟨"kw text", [("id", "k1")], "k1", 0, 1, 3/10⟩] ∧
    ([⟨"kw text", [("id", "k1")], "k1", 0, 1, 3/10⟩] : List Candidate) ≠ [] :=
  ⟨by decide, by decide⟩

/-- C7 (amended): if the call `self.vector_store.search(...)` itself raises,
`HybridRetriever.search` catches the exception and returns the empty list,
with no exception propagating; if instead the backing service is unreachable,
`ChromaVectorStore.search` catches the error and returns an empty vector
result list, and `HybridRetriever.search` then proceeds to fuse the empty
vector list with the keyword results, returning keyword-only candidates (a
partial answer) rather than an empty list. -/
theorem vector_failure_handling (r : HybridRetriever) (q : String) (n : Nat) (e : Unit) :
    search r q (.error e) n = [] ∧
    vector_store_search (.error e) = [] ∧
    search r q (.ok (vector_store_search (.error e))) n =
      merge_results r [] (keywordPhase r q n) n :=
  ⟨rfl, rfl, rfl⟩

/-- C9 (counterexample): a failing rebuild leaves the previously stored BM25
index in place, so keyword search afterwards still serves the old index and
returns a non-empty result set, not the empty one the claim requires. -/
theorem setup_failure_counterexample :
    keyword_search (setup_bm25_retriever ⟨7/10, some (fun _ => .ok [⟨"t", [("id", "a")]⟩])⟩
        (.error ())) "q" 5 = [⟨"a", "t", [("id", "a")], 1⟩] ∧
    ([⟨"a", "t", [("id", "a")], 1⟩] : List KwResult) ≠ [] :=
  ⟨by decide, by decide⟩

/-- C9 (amended): when index construction raises, `setup_bm25_retriever`
reports the failure and returns with the retriever state unchanged (no
exception propagates; a previously stored index is retained); if no index had
been built, keyword search and the keyword phase of hybrid search return the
empty result set rather than raising, and in general keyword search behaves
exactly as before the failed call. -/
theorem setup_failure_handling (r : HybridRetriever) (e : Unit) :
    setup_bm25_retriever r (.error e) = r ∧
    (r.bm25_retriever = none →
      ∀ q n, keyword_search (setup_bm25_retriever r (.error e)) q n = [] ∧
        keywordPhase (setup_bm25_retriever r (.error e)) q n = []) ∧
    (∀ q n, keyword_search (setup_bm25_retriever r (.error e)) q n =
        keyword_search r q n) := by
  refine ⟨rfl, ?_, fun q n => rfl⟩
  intro h q n
  constructor
  · simp [keyword_search, setup_bm25_retriever, h]
  · simp [keywordPhase, setup_bm25_retriever, h]

theorem setup_failure_handling_witness :
    keyword_search (setup_bm25_retriever ⟨7/10, none⟩ (.error ())) "q" 5 = [] ∧
    keywordPhase (setup_bm25_retriever ⟨7/10, none⟩ (.error ())) "q" 5 = [] :=
  (setup_failure_handling ⟨7/10, none⟩ ()).2.1 rfl "q" 5

/-- C10: when two or more keyword results share an id, the merged mapping has
exactly one candidate for that id; it carries the text and metadata of the
first such keyword result (or of the matching vector result when the id was
also returned by vector search) and the keyword score of the last such
keyword result, which silently overwrites the earlier ones. -/
theorem duplicate_keyword_ids (vrs : List VecResult) (krs : List KwResult) (i : String)
    (h : 2 ≤ (krs.filter (fun k => k.id == i)).length) :
    ∃ c f l, (krs.filter (fun k => k.id == i)).head? = some f ∧
      (krs.filter (fun k => k.id == i)).getLast? = some l ∧
      findCand (mergeMap vrs krs) i = some c ∧
      (mergeMap vrs krs).countP (fun x => x.id == i) = 1 ∧
      c.keyword_score = l.score ∧
      (∀ v, vrs.find? (fun x => x.id == i) = some v →
        c.text = v.text ∧ c.metadata = v.metadata) ∧
      (vrs.find? (fun x => x.id == i) = none →
        c.text = f.text ∧ c.metadata = f.metadata) := by
  have hne : krs.filter (fun k => k.id == i) ≠ [] := by
    intro he
    rw [he] at h
    simp at h
  obtain ⟨f, hf⟩ : ∃ f, (krs.filter (fun k => k.id == i)).head? = some f := by
    cases hc : krs.filter (fun k => k.id == i) with
    | nil => exact absurd hc hne
    | cons a t => exact ⟨a, rfl⟩
  obtain ⟨l, hl⟩ : ∃ l, (krs.filter (fun k => k.id == i)).getLast? = some l :=
    Option.isSome_iff_exists.mp (List.getLast?_isSome.mpr hne)
  have hfk : firstKw krs i = some f := by rw [firstKw_eq_head_filter, hf]
  have hlk : lastKw krs i = some l := by rw [lastKw_eq_getLast_filter, hl]
  have hfmem : f ∈ krs := List.mem_of_find?_eq_some hfk
  have hfid : f.id = i := by simpa using List.find?_some hfk
  have hkid : i ∈ krs.map KwResult.id := hfid ▸ List.mem_map_of_mem KwResult.id hfmem
  have himem : i ∈ (mergeMap vrs krs).map Candidate.id :=
    (mem_ids_mergeMap vrs krs i).mpr (Or.inr hkid)
  have hcount := countP_id_mergeMap himem
  cases hvf : vrs.find? (fun x => x.id == i) with
  | some v =>
    refine ⟨applyKw (some l) (vecCandidate v), f, l, hf, hl, ?_, hcount, rfl, ?_, ?_⟩
    · rw [findCand_mergeMap, hvf, hlk]
      rfl
    · intro v' hv'
      injection hv' with he
      subst he
      exact ⟨(applyKw_text _ _).trans rfl, (applyKw_metadata _ _).trans rfl⟩
    · intro hnone
      cases hnone
  | none =>
    refine ⟨applyKw (some l) (kwCandidate f), f, l, hf, hl, ?_, hcount, rfl, ?_, ?_⟩
    · rw [findCand_mergeMap, hvf, hfk, hlk]
      rfl
    · intro v hv
      cases hv
    · intro _
      exact ⟨(applyKw_text _ _).trans rfl, (applyKw_metadata _ _).trans rfl⟩

theorem duplicate_keyword_ids_witness :
    ∃ c f l,
      (([⟨"a", "t1", [("k", "v")], 1⟩, ⟨"a", "t2", [], 2⟩] : List KwResult).filter
        (fun k => k.id == "a")).head? = some f ∧
      (([⟨"a", "t1", [("k", "v")], 1⟩, ⟨"a", "t2", [], 2⟩] : List KwResult).filter
        (fun k => k.id == "a")).getLast? = some l ∧
      findCand (mergeMap [] [⟨"a", "t1", [("k", "v")], 1⟩, ⟨"a", "t2", [], 2⟩]) "a" = some c ∧
      (mergeMap [] [⟨"a", "t1", [("k", "v")], 1⟩, ⟨"a", "t2", [], 2⟩]).countP
        (fun x => x.id == "a") = 1 ∧
      c.keyword_score = l.score ∧
      (∀ v, ([] : List VecResult).find? (fun x => x.id == "a") = some v →
        c.text = v.text ∧ c.metadata = v.metadata) ∧
      (([] : List VecResult).find? (fun x => x.id == "a") = none →
        c.text = f.text ∧ c.metadata = f.metadata) :=
  duplicate_keyword_ids [] [⟨"a", "t1", [("k", "v")], 1⟩, ⟨"a", "t2", [], 2⟩] "a" (by decide)

end BarbellGPT
